import Mathlib

/-!
Shallow embedding of the JWT decoder in src/src/app/page.tsx.

The embedding models, from the source:
  - base64UrlDecode (page.tsx lines 67-79), including the behaviour of the
    browser primitive atob (WHATWG forgiving-base64 decode);
  - decodeJWT (page.tsx lines 81-109), including the behaviour of JSON.parse
    on the decoded segment text, JavaScript property access, truthiness,
    number coercion and Date construction/comparison;
  - the claim-value display logic of ClaimRow (page.tsx lines 122-127).

JSON values are represented by a closed sum type whose numbers are integers
(fractional JSON numbers and IEEE-754 specifics are outside the embedding;
no claim depends on them).  The ambient clock new Date() is passed in
explicitly as a millisecond count.
-/

namespace JwtDecoder

/-- A JSON value.  Object members keep their textual order, duplicates
included, exactly as produced by a parse of the member list; JavaScript
property lookup on such an object takes the last binding of a key. -/
inductive Json where
  | null
  | bool (b : Bool)
  | num (n : Int)
  | str (s : String)
  | arr (elems : List Json)
  | obj (members : List (String × Json))
deriving Repr

/-- Lower-case hexadecimal digit, as produced by JSON.stringify escapes. -/
def hexDigit (n : Nat) : Char :=
  if n < 10 then Char.ofNat (48 + n) else Char.ofNat (87 + n)

/-- The escape JSON.stringify emits for one character of a string:
quote and backslash get a two-character escape, the five named control
characters get their short forms, the remaining control characters below
U+0020 get a \u00xx escape, and every other character is emitted as is. -/
def escapeChar (c : Char) : List Char :=
  if c = Char.ofNat 34 then [Char.ofNat 92, Char.ofNat 34]
  else if c = Char.ofNat 92 then [Char.ofNat 92, Char.ofNat 92]
  else if c = Char.ofNat 8 then [Char.ofNat 92, Char.ofNat 98]
  else if c = Char.ofNat 9 then [Char.ofNat 92, Char.ofNat 116]
  else if c = Char.ofNat 10 then [Char.ofNat 92, Char.ofNat 110]
  else if c = Char.ofNat 12 then [Char.ofNat 92, Char.ofNat 102]
  else if c = Char.ofNat 13 then [Char.ofNat 92, Char.ofNat 114]
  else if c.toNat < 32 then
    [Char.ofNat 92, Char.ofNat 117, Char.ofNat 48, Char.ofNat 48,
     hexDigit (c.toNat / 16), hexDigit (c.toNat % 16)]
  else [c]

/-- The JSON text of a string value: a quoted run of escaped characters. -/
def quoteString (s : String) : List Char :=
  Char.ofNat 34 :: (s.data.map escapeChar).flatten ++ [Char.ofNat 34]

/-- Decimal digits of a natural number, most significant first
(accumulator form). -/
def natDigitsAux (n : Nat) (acc : List Char) : List Char :=
  if h : n < 10 then Char.ofNat (48 + n) :: acc
  else natDigitsAux (n / 10) (Char.ofNat (48 + n % 10) :: acc)
decreasing_by exact Nat.div_lt_self (by omega) (by omega)

def natDigits (n : Nat) : List Char := natDigitsAux n []

/-- Decimal rendering of an integer, as JSON.stringify renders an
integral number. -/
def intChars (n : Int) : List Char :=
  if n < 0 then Char.ofNat 45 :: natDigits n.natAbs else natDigits n.natAbs

mutual
/-- Compact JSON serialization, the behaviour of JSON.stringify with no
indent argument. -/
def jsonStringify : Json → List Char
  | .null => [Char.ofNat 110, Char.ofNat 117, Char.ofNat 108, Char.ofNat 108]
  | .bool true => [Char.ofNat 116, Char.ofNat 114, Char.ofNat 117, Char.ofNat 101]
  | .bool false => [Char.ofNat 102, Char.ofNat 97, Char.ofNat 108, Char.ofNat 115, Char.ofNat 101]
  | .num n => intChars n
  | .str s => quoteString s
  | .arr xs => Char.ofNat 91 :: stringifyElems xs ++ [Char.ofNat 93]
  | .obj ms => Char.ofNat 123 :: stringifyMembers ms ++ [Char.ofNat 125]

/-- Comma-separated serialization of array elements. -/
def stringifyElems : List Json → List Char
  | [] => []
  | [x] => jsonStringify x
  | x :: y :: xs => jsonStringify x ++ Char.ofNat 44 :: stringifyElems (y :: xs)

/-- Comma-separated serialization of object members. -/
def stringifyMembers : List (String × Json) → List Char
  | [] => []
  | [(k, v)] => quoteString k ++ Char.ofNat 58 :: jsonStringify v
  | (k, v) :: m :: ms =>
      quoteString k ++ Char.ofNat 58 :: jsonStringify v ++ Char.ofNat 44 :: stringifyMembers (m :: ms)
end

/-- JavaScript whitespace recognised by String.prototype.trim
(ASCII subset; the exotic Unicode space characters are not modelled,
no claim involves them). -/
def jsWs (c : Char) : Bool :=
  c = Char.ofNat 32 || c = Char.ofNat 9 || c = Char.ofNat 10 ||
  c = Char.ofNat 13 || c = Char.ofNat 11 || c = Char.ofNat 12

/-- token.trim(): drop leading and trailing whitespace. -/
def jsTrimList (l : List Char) : List Char :=
  ((l.dropWhile jsWs).reverse.dropWhile jsWs).reverse

/-- token.split with the literal dot separator, as JavaScript splits: an
empty string yields the one-element list of the empty segment. -/
def splitDot : List Char → List (List Char)
  | [] => [[]]
  | c :: rest =>
    if c = Char.ofNat 46 then [] :: splitDot rest
    else
      match splitDot rest with
      | seg :: segs => (c :: seg) :: segs
      | [] => [[c]]

/-! ### atob and base64UrlDecode -/

/-- ASCII whitespace stripped by the WHATWG forgiving-base64 decode that
atob implements. -/
def asciiWs (c : Char) : Bool :=
  c = Char.ofNat 32 || c = Char.ofNat 9 || c = Char.ofNat 10 ||
  c = Char.ofNat 12 || c = Char.ofNat 13

/-- Position of a character in the standard base64 alphabet, none when the
character is not in the alphabet. -/
def b64Index (c : Char) : Option Nat :=
  if 65 ≤ c.toNat ∧ c.toNat ≤ 90 then some (c.toNat - 65)
  else if 97 ≤ c.toNat ∧ c.toNat ≤ 122 then some (c.toNat - 71)
  else if 48 ≤ c.toNat ∧ c.toNat ≤ 57 then some (c.toNat + 4)
  else if c = Char.ofNat 43 then some 62
  else if c = Char.ofNat 47 then some 63
  else none

/-- Reassemble bytes from a run of 6-bit values; a trailing group of two or
three values contributes one or two bytes, leftover bits are discarded
(forgiving decode). -/
def b64Bytes : List Nat → List Nat
  | a :: b :: c :: d :: rest =>
      (a * 4 + b / 16) :: ((b % 16) * 16 + c / 4) :: ((c % 4) * 64 + d) :: b64Bytes rest
  | [a, b] => [a * 4 + b / 16]
  | [a, b, c] => [a * 4 + b / 16, (b % 16) * 16 + c / 4]
  | _ => []

/-- When the length is a multiple of four, remove up to two trailing
padding characters, as the forgiving-base64 decode does. -/
def stripPad (l : List Char) : List Char :=
  if l.length % 4 = 0 then
    match l.reverse with
    | c1 :: c2 :: t =>
        if c1 = Char.ofNat 61 then
          if c2 = Char.ofNat 61 then t.reverse else (c2 :: t).reverse
        else l
    | [c1] => if c1 = Char.ofNat 61 then [] else l
    | [] => l
  else l

/-- Alphabet positions of a whole character run, none as soon as one
character is outside the base64 alphabet. -/
def mapB64 : List Char → Option (List Nat)
  | [] => some []
  | c :: cs =>
    match b64Index c, mapB64 cs with
    | some v, some vs => some (v :: vs)
    | _, _ => none

/-- The browser primitive atob: WHATWG forgiving-base64 decode.  Strips
ASCII whitespace, strips up to two trailing padding characters when the
length is a multiple of four, fails when the remaining length is 1 mod 4
or a character is outside the base64 alphabet, and otherwise yields the
decoded bytes as characters U+0000 .. U+00FF. -/
def atob (input : List Char) : Except Unit (List Char) :=
  let d1 := input.filter (fun c => !asciiWs c)
  let d2 := stripPad d1
  if d2.length % 4 = 1 then .error ()
  else
    match mapB64 d2 with
    | none => .error ()
    | some vals => .ok ((b64Bytes vals).map Char.ofNat)

/-- str.replace of the two URL-safe alphabet characters, applied to one
character: dash becomes plus, underscore becomes slash. -/
def urlToStd (c : Char) : Char :=
  if c = Char.ofNat 45 then Char.ofNat 43
  else if c = Char.ofNat 95 then Char.ofNat 47
  else c

/-- The while loop of base64UrlDecode: append padding characters until the
length is a multiple of four (closed form of the loop, which appends 3, 2
or 1 characters for lengths 1, 2, 3 mod 4). -/
def padB64 (l : List Char) : List Char :=
  if l.length % 4 = 1 then l ++ [Char.ofNat 61, Char.ofNat 61, Char.ofNat 61]
  else if l.length % 4 = 2 then l ++ [Char.ofNat 61, Char.ofNat 61]
  else if l.length % 4 = 3 then l ++ [Char.ofNat 61]
  else l

/-- base64UrlDecode (page.tsx lines 67-79): translate the URL-safe
alphabet to the standard one, pad, and decode with atob; an atob failure
is re-thrown and surfaces as a decode failure. -/
def base64UrlDecode (s : List Char) : Except Unit (List Char) :=
  atob (padB64 (s.map urlToStd))

/-! ### JSON.parse -/

/-- JSON insignificant whitespace. -/
def jsonWs (c : Char) : Bool :=
  c = Char.ofNat 32 || c = Char.ofNat 9 || c = Char.ofNat 10 || c = Char.ofNat 13

def skipWs : List Char → List Char
  | [] => []
  | c :: rest => if jsonWs c then skipWs rest else c :: rest

/-- Value of a hexadecimal digit character. -/
def parseHex (c : Char) : Option Nat :=
  if 48 ≤ c.toNat ∧ c.toNat ≤ 57 then some (c.toNat - 48)
  else if 97 ≤ c.toNat ∧ c.toNat ≤ 102 then some (c.toNat - 87)
  else if 65 ≤ c.toNat ∧ c.toNat ≤ 70 then some (c.toNat - 55)
  else none

def consStr (c : Char) (o : Option (List Char × List Char)) :
    Option (List Char × List Char) :=
  o.map (fun p => (c :: p.1, p.2))

mutual
/-- Body of a JSON string literal after the opening quote: characters up
to the closing quote, with the standard escapes; raw control characters
are rejected, as JSON.parse rejects them. -/
def parseStrBody : List Char → Option (List Char × List Char)
  | [] => none
  | c :: rest =>
    if c = Char.ofNat 34 then some ([], rest)
    else if c = Char.ofNat 92 then parseEsc rest
    else if c.toNat < 32 then none
    else consStr c (parseStrBody rest)

/-- The character after a backslash in a JSON string literal. -/
def parseEsc : List Char → Option (List Char × List Char)
  | [] => none
  | e :: r =>
    if e = Char.ofNat 34 then consStr (Char.ofNat 34) (parseStrBody r)
    else if e = Char.ofNat 92 then consStr (Char.ofNat 92) (parseStrBody r)
    else if e = Char.ofNat 47 then consStr (Char.ofNat 47) (parseStrBody r)
    else if e = Char.ofNat 98 then consStr (Char.ofNat 8) (parseStrBody r)
    else if e = Char.ofNat 102 then consStr (Char.ofNat 12) (parseStrBody r)
    else if e = Char.ofNat 110 then consStr (Char.ofNat 10) (parseStrBody r)
    else if e = Char.ofNat 114 then consStr (Char.ofNat 13) (parseStrBody r)
    else if e = Char.ofNat 116 then consStr (Char.ofNat 9) (parseStrBody r)
    else if e = Char.ofNat 117 then parseUEsc r
    else none

/-- The four hexadecimal digits of a \u escape.  Escapes denoting
surrogate code units are not modelled (rejected); no claim involves
them. -/
def parseUEsc : List Char → Option (List Char × List Char)
  | e1 :: e2 :: e3 :: e4 :: r2 =>
    (match parseHex e1, parseHex e2, parseHex e3, parseHex e4 with
     | some a, some b, some c2, some d =>
       let n := ((a * 16 + b) * 16 + c2) * 16 + d
       if n < 55296 then consStr (Char.ofNat n) (parseStrBody r2) else none
     | _, _, _, _ => none)
  | _ => none
end

/-- Decimal digit test, stated arithmetically on the code point. -/
def isDigitC (c : Char) : Bool :=
  48 ≤ c.toNat && c.toNat ≤ 57

/-- Longest leading run of decimal digits. -/
def spanDigits : List Char → List Char × List Char
  | [] => ([], [])
  | c :: rest =>
    if isDigitC c then
      let p := spanDigits rest
      (c :: p.1, p.2)
    else ([], c :: rest)

def digitsToNat (ds : List Char) : Nat :=
  ds.foldl (fun acc c => acc * 10 + (c.toNat - 48)) 0

/-- The integer part of a JSON number: one or more digits with no
superfluous leading zero.  Fractional parts and exponents are outside the
integer-valued embedding (such inputs fail to parse here where JSON.parse
would produce a non-integral number; no claim involves them). -/
def parseNat (input : List Char) : Option (Nat × List Char) :=
  let p := spanDigits input
  match p.1 with
  | [] => none
  | d :: ds => if d = Char.ofNat 48 ∧ ds ≠ [] then none else some (digitsToNat (d :: ds), p.2)

mutual
/-- JSON value grammar, fuel-indexed.  Fuel decreases on each nested
value; the top-level entry point supplies fuel exceeding the input
length, which the round-trip development shows is always enough for
serialized values. -/
def parseVal : Nat → List Char → Option (Json × List Char)
  | 0, _ => none
  | fuel + 1, input =>
    match skipWs input with
    | [] => none
    | c :: rest =>
      if c = Char.ofNat 110 then
        match rest with
        | u :: l1 :: l2 :: r =>
          if u = Char.ofNat 117 ∧ l1 = Char.ofNat 108 ∧ l2 = Char.ofNat 108 then
            some (.null, r)
          else none
        | _ => none
      else if c = Char.ofNat 116 then
        match rest with
        | r1 :: u :: e :: r =>
          if r1 = Char.ofNat 114 ∧ u = Char.ofNat 117 ∧ e = Char.ofNat 101 then
            some (.bool true, r)
          else none
        | _ => none
      else if c = Char.ofNat 102 then
        match rest with
        | a :: l1 :: s :: e :: r =>
          if a = Char.ofNat 97 ∧ l1 = Char.ofNat 108 ∧ s = Char.ofNat 115 ∧ e = Char.ofNat 101 then
            some (.bool false, r)
          else none
        | _ => none
      else if c = Char.ofNat 34 then
        (parseStrBody rest).map (fun p => (.str (String.mk p.1), p.2))
      else if c = Char.ofNat 91 then
        match skipWs rest with
        | d :: r2 =>
          if d = Char.ofNat 93 then some (.arr [], r2)
          else (parseElems fuel (d :: r2)).map (fun p => (.arr p.1, p.2))
        | [] => none
      else if c = Char.ofNat 123 then
        match skipWs rest with
        | d :: r2 =>
          if d = Char.ofNat 125 then some (.obj [], r2)
          else (parseMembers fuel (d :: r2)).map (fun p => (.obj p.1, p.2))
        | [] => none
      else if c = Char.ofNat 45 then
        (parseNat rest).map (fun p => (.num (-(p.1 : Int)), p.2))
      else if isDigitC c then
        (parseNat (c :: rest)).map (fun p => (.num (p.1 : Int), p.2))
      else none

/-- One or more comma-separated array elements followed by the closing
bracket, which is consumed. -/
def parseElems : Nat → List Char → Option (List Json × List Char)
  | 0, _ => none
  | fuel + 1, input =>
    match parseVal fuel input with
    | none => none
    | some (x, rest) =>
      match skipWs rest with
      | c :: r =>
        if c = Char.ofNat 44 then
          match parseElems fuel r with
          | none => none
          | some (xs, r2) => some (x :: xs, r2)
        else if c = Char.ofNat 93 then some ([x], r)
        else none
      | [] => none

/-- One or more comma-separated object members followed by the closing
brace, which is consumed. -/
def parseMembers : Nat → List Char → Option (List (String × Json) × List Char)
  | 0, _ => none
  | fuel + 1, input =>
    match skipWs input with
    | q :: rest =>
      if q = Char.ofNat 34 then
        match parseStrBody rest with
        | none => none
        | some (k, r1) =>
          match skipWs r1 with
          | c1 :: r2 =>
            if c1 = Char.ofNat 58 then
              match parseVal fuel r2 with
              | none => none
              | some (v, r3) =>
                match skipWs r3 with
                | c2 :: r4 =>
                  if c2 = Char.ofNat 44 then
                    match parseMembers fuel r4 with
                    | none => none
                    | some (ms, r5) => some ((String.mk k, v) :: ms, r5)
                  else if c2 = Char.ofNat 125 then some ([(String.mk k, v)], r4)
                  else none
                | [] => none
            else none
          | [] => none
      else none
    | [] => none
end

/-- JSON.parse on the text produced by atob: parse one value and require
only whitespace after it. -/
def jsonParse (l : List Char) : Option Json :=
  match parseVal (2 * l.length + 2) l with
  | some (j, rest) => if skipWs rest = [] then some j else none
  | none => none

mutual
/-- Fuel bound sufficient to parse the serialization of a value. -/
def sizeJ : Json → Nat
  | .null => 1
  | .bool _ => 1
  | .num _ => 1
  | .str _ => 1
  | .arr xs => 1 + elemsSize xs
  | .obj ms => 1 + membersSize ms

/-- Fuel bound for an element list. -/
def elemsSize : List Json → Nat
  | [] => 0
  | x :: xs => sizeJ x + 1 + elemsSize xs

/-- Fuel bound for a member list. -/
def membersSize : List (String × Json) → Nat
  | [] => 0
  | m :: ms => sizeJ m.2 + 1 + membersSize ms
end

/-- A continuation that cannot extend a serialized number: empty, or
starting with a non-digit. -/
def goodTail : List Char → Prop
  | [] => True
  | c :: _ => isDigitC c = false

/-! ### JavaScript value semantics used by decodeJWT -/

/-- JavaScript truthiness of a JSON value. -/
def truthy : Json → Bool
  | .null => false
  | .bool b => b
  | .num n => n ≠ 0
  | .str s => s ≠ ""
  | .arr _ => true
  | .obj _ => true

/-- Truthiness of a possibly-absent property (undefined is falsy). -/
def truthyOpt : Option Json → Bool
  | none => false
  | some j => truthy j

/-- Last binding of a key in an object member list, which is JavaScript
property lookup on an object built by JSON.parse (later duplicate keys
overwrite earlier ones). -/
def lookupLast (ms : List (String × Json)) (k : String) : Option Json :=
  ms.foldl (fun acc m => if m.1 = k then some m.2 else acc) none

/-- payload.k seen as a total function: objects look the key up, other
values (arrays, strings, numbers, booleans) have no such own property,
and the null case is only reached behind the throwing check below. -/
def propOf (p : Json) (k : String) : Option Json :=
  match p with
  | .obj ms => lookupLast ms k
  | _ => none

/-- JavaScript property access payload.k: throws a TypeError on null,
otherwise yields the property value or undefined. -/
def getProp (p : Json) (k : String) : Except Unit (Option Json) :=
  match p with
  | .null => .error ()
  | _ => .ok (propOf p k)

/-- JavaScript Number() applied to a string: whitespace-trimmed, empty
means zero, an optionally signed digit run means that integer, anything
else is NaN (none).  Fractional, hexadecimal and exponent forms are
outside the integer embedding and map to NaN here. -/
def strToNumber (s : String) : Option Int :=
  let t := jsTrimList s.data
  match t with
  | [] => some 0
  | c :: ds =>
    if c = Char.ofNat 45 then
      if ds ≠ [] ∧ ds.all (fun d => isDigitC d) then some (-(digitsToNat ds : Int)) else none
    else if c = Char.ofNat 43 then
      if ds ≠ [] ∧ ds.all (fun d => isDigitC d) then some ((digitsToNat ds : Int)) else none
    else if t.all (fun d => isDigitC d) then some ((digitsToNat t : Int))
    else none

/-- JavaScript ToNumber on a JSON value, none standing for NaN.  The
ToPrimitive coercion of arrays is not modelled (treated as NaN); plain
objects genuinely coerce to NaN. -/
def jsToNumber : Json → Option Int
  | .null => some 0
  | .bool b => some (if b then 1 else 0)
  | .num n => some n
  | .str s => strToNumber s
  | .arr _ => none
  | .obj _ => none

/-- new Date(ms): a millisecond timestamp within the ECMAScript range, or
the Invalid Date (none) for NaN or out-of-range arguments. -/
def jsDateOfMs (ms : Option Int) : Option Int :=
  match ms with
  | none => none
  | some m => if m.natAbs ≤ 8640000000000000 then some m else none

/-- date < new Date(): millisecond comparison; any comparison against the
Invalid Date is false. -/
def jsDateLt (d : Option Int) (now : Int) : Bool :=
  match d with
  | none => false
  | some m => m < now

/-! ### decodeJWT -/

/-- The record decodeJWT returns (page.tsx lines 22-29).  Dates are
millisecond timestamps; the outer Option is null versus a Date object and
the inner one a valid versus Invalid Date. -/
structure DecodedJWT where
  header : Json
  payload : Json
  signature : List Char
  isExpired : Bool
  expiresAt : Option (Option Int)
  issuedAt : Option (Option Int)
deriving Repr

/-- The body of the try block of decodeJWT after both segments parsed
(page.tsx lines 90-105): derive the temporal fields and assemble the
record.  A thrown property access (null payload) propagates to the
catch. -/
def decodeBody (header payload : Json) (signature : List Char) (now : Int) :
    Except Unit DecodedJWT :=
  match getProp payload "exp" with
  | .error e => .error e
  | .ok ex =>
    let expPair :=
      if truthyOpt ex then
        let d := jsDateOfMs ((jsToNumber (ex.getD .null)).map (· * 1000))
        (jsDateLt d now, some d)
      else (false, (none : Option (Option Int)))
    match getProp payload "iat" with
    | .error e => .error e
    | .ok ia =>
      let issuedAt :=
        if truthyOpt ia then
          some (jsDateOfMs ((jsToNumber (ia.getD .null)).map (· * 1000)))
        else (none : Option (Option Int))
      .ok ⟨header, payload, signature, expPair.1, expPair.2, issuedAt⟩

/-- decodeJWT (page.tsx lines 81-109): trim, split on dots, require three
segments, base64url-decode and JSON-parse header and payload, keep the
third segment verbatim as the signature, derive the temporal fields; any
internal failure yields null. -/
def decodeJWT (token : String) (now : Int) : Option DecodedJWT :=
  match splitDot (jsTrimList token.data) with
  | [p0, p1, p2] =>
    match base64UrlDecode p0 with
    | .error _ => none
    | .ok hText =>
      match jsonParse hText with
      | none => none
      | some header =>
        match base64UrlDecode p1 with
        | .error _ => none
        | .ok pText =>
          match jsonParse pText with
          | none => none
          | some payload =>
            match decodeBody header payload p2 now with
            | .error _ => none
            | .ok d => some d
  | _ => none

/-! ### ClaimRow display logic -/

/-- The isTimestamp test of ClaimRow (page.tsx lines 123-124): the value
is a number and the claim name is exp, iat or nbf. -/
def isTimestampClaim (name : String) (value : Json) : Bool :=
  (match value with | .num _ => true | _ => false) &&
  (name = "exp" || name = "iat" || name = "nbf")

/-- The displayValue of ClaimRow (page.tsx lines 125-127).  The locale
rendering of a Date is environment dependent, so it is abstracted as the
function argument fmt; the branch structure and the Date construction are
from the source. -/
def displayValue (fmt : Option Int → String) (name : String) (value : Json) : String :=
  if isTimestampClaim name value then
    fmt (jsDateOfMs ((jsToNumber value).map (· * 1000)))
  else String.mk (jsonStringify value)

/-- The derived expiresAt field of decodeJWT, as a function of the parsed
payload: null unless payload.exp is truthy, in which case it is the Date
built from exp coerced to a number times 1000. -/
def expDerived (p : Json) : Option (Option Int) :=
  if truthyOpt (propOf p "exp") then
    some (jsDateOfMs ((jsToNumber ((propOf p "exp").getD .null)).map (· * 1000)))
  else none

/-- The derived isExpired field of decodeJWT as a function of the parsed
payload and the clock: false unless payload.exp is truthy, in which case
the derived Date is compared strictly against now. -/
def expFlag (p : Json) (now : Int) : Bool :=
  if truthyOpt (propOf p "exp") then
    jsDateLt (jsDateOfMs ((jsToNumber ((propOf p "exp").getD .null)).map (· * 1000))) now
  else false

/-- The derived issuedAt field of decodeJWT as a function of the parsed
payload. -/
def iatDerived (p : Json) : Option (Option Int) :=
  if truthyOpt (propOf p "iat") then
    some (jsDateOfMs ((jsToNumber ((propOf p "iat").getD .null)).map (· * 1000)))
  else none

/-- Declarative acceptance condition of the forgiving-base64 decode: after
stripping ASCII whitespace and up to two trailing padding characters, the
length is not 1 mod 4 and every character is in the base64 alphabet. -/
def forgivingValid (l : List Char) : Bool :=
  let d := stripPad (l.filter (fun c => !asciiWs c))
  (decide (d.length % 4 ≠ 1)) && d.all (fun c => (b64Index c).isSome)

/-! ### base64url encoding (spec-modelled, for the round-trip property) -/

/-- Modelled from the spec: the repository contains no encoder, but the
round-trip property of spec section 8 and the glossary describe standard
base64url encoding (base64 with the URL-safe alphabet and padding
omitted).  Character of the standard base64 alphabet at a 6-bit index. -/
def b64Char (n : Nat) : Char :=
  if n < 26 then Char.ofNat (65 + n)
  else if n < 52 then Char.ofNat (71 + n)
  else if n < 62 then Char.ofNat (n - 4)
  else if n = 62 then Char.ofNat 43
  else Char.ofNat 47

/-- Modelled from the spec: the 6-bit value sequence of the base64
encoding of a byte sequence, padding not represented (base64url omits
it). -/
def encodeVals : List Nat → List Nat
  | x :: y :: z :: rest =>
      x / 4 :: ((x % 4) * 16 + y / 16) :: ((y % 16) * 4 + z / 64) :: z % 64 :: encodeVals rest
  | [x] => [x / 4, (x % 4) * 16]
  | [x, y] => [x / 4, (x % 4) * 16 + y / 16, (y % 16) * 4]
  | [] => []

/-- Modelled from the spec: translate one standard-alphabet character to
the URL-safe alphabet. -/
def stdToUrl (c : Char) : Char :=
  if c = Char.ofNat 43 then Char.ofNat 45
  else if c = Char.ofNat 47 then Char.ofNat 95
  else c

/-- Modelled from the spec: base64url encoding of a byte sequence,
padding omitted. -/
def b64UrlEncode (bytes : List Nat) : List Char :=
  (encodeVals bytes).map (fun v => stdToUrl (b64Char v))

/-- Modelled from the spec: assemble a token from a header, a payload and
a signature string: base64url-encode the serialized JSON of each of the
two parts and join the three segments with dots.  The serialized text is
taken byte-wise (meaningful when its characters are below U+0100; the
decoder works byte-wise through atob and cannot reassemble multi-byte
UTF-8). -/
def encodeJWT (h p : Json) (sig : List Char) : String :=
  String.mk
    (b64UrlEncode ((jsonStringify h).map Char.toNat) ++
     Char.ofNat 46 :: b64UrlEncode ((jsonStringify p).map Char.toNat) ++
     Char.ofNat 46 :: sig)

/-! ## Structural lemmas about decodeJWT -/

theorem getProp_of_ne_null {p : Json} (hp : p ≠ Json.null) (k : String) :
    getProp p k = .ok (propOf p k) := by
  cases p <;> first | exact absurd rfl hp | rfl

theorem decodeBody_null (h : Json) (sig : List Char) (now : Int) :
    decodeBody h Json.null sig now = .error () := rfl

theorem decodeBody_eq (h : Json) {p : Json} (hp : p ≠ Json.null) (sig : List Char) (now : Int) :
    decodeBody h p sig now =
      .ok ⟨h, p, sig, expFlag p now, expDerived p, iatDerived p⟩ := by
  unfold decodeBody
  rw [getProp_of_ne_null hp "exp", getProp_of_ne_null hp "iat"]
  simp only [expFlag, expDerived, iatDerived]
  split_ifs <;> rfl

theorem decode_inv {token : String} {now : Int} {d : DecodedJWT}
    (hd : decodeJWT token now = some d) :
    ∃ p0 p1 p2 hText pText header payload,
      splitDot (jsTrimList token.data) = [p0, p1, p2] ∧
      base64UrlDecode p0 = .ok hText ∧ jsonParse hText = some header ∧
      base64UrlDecode p1 = .ok pText ∧ jsonParse pText = some payload ∧
      payload ≠ Json.null ∧
      d = ⟨header, payload, p2, expFlag payload now, expDerived payload, iatDerived payload⟩ := by
  unfold decodeJWT at hd
  split at hd
  case _ p0 p1 p2 hsplit =>
    split at hd
    case _ => exact absurd hd (by simp)
    case _ hText hb0 =>
      split at hd
      case _ => exact absurd hd (by simp)
      case _ header hj0 =>
        split at hd
        case _ => exact absurd hd (by simp)
        case _ pText hb1 =>
          split at hd
          case _ => exact absurd hd (by simp)
          case _ payload hj1 =>
            have hp : payload ≠ Json.null := by
              intro hcon
              subst hcon
              rw [decodeBody_null] at hd
              exact absurd hd (by simp)
            rw [decodeBody_eq header hp p2 now] at hd
            simp only [Option.some.injEq] at hd
            exact ⟨p0, p1, p2, hText, pText, header, payload,
              hsplit, hb0, hj0, hb1, hj1, hp, hd.symm⟩
  case _ => exact absurd hd (by simp)

theorem decode_eq_some {token : String} (now : Int) {p0 p1 p2 hText pText : List Char}
    {header payload : Json}
    (hs : splitDot (jsTrimList token.data) = [p0, p1, p2])
    (hb0 : base64UrlDecode p0 = .ok hText) (hj0 : jsonParse hText = some header)
    (hb1 : base64UrlDecode p1 = .ok pText) (hj1 : jsonParse pText = some payload)
    (hp : payload ≠ Json.null) :
    decodeJWT token now =
      some ⟨header, payload, p2, expFlag payload now, expDerived payload, iatDerived payload⟩ := by
  unfold decodeJWT
  rw [hs]
  simp only []
  rw [hb0]
  simp only []
  rw [hj0]
  simp only []
  rw [hb1]
  simp only []
  rw [hj1]
  simp only []
  rw [decodeBody_eq header hp p2 now]

/-! ## Claim theorems -/

/-- C4: for every input string whose trimmed form does not split on the
literal dot into exactly 3 segments, decodeJWT returns null and never a
decoded token. -/
theorem C4_segment_count (token : String) (now : Int)
    (h : (splitDot (jsTrimList token.data)).length ≠ 3) :
    decodeJWT token now = none := by
  unfold decodeJWT
  split
  case _ p0 p1 p2 heq =>
    exact absurd (show (splitDot (jsTrimList token.data)).length = 3 by rw [heq]; rfl) h
  case _ => rfl

/-- C4 witness: the two-segment input a.b decodes to null. -/
theorem C4_segment_count_witness : decodeJWT "a.b" 0 = none :=
  C4_segment_count "a.b" 0 (by decide)

/-- C7: decodeJWT is total: on every input string and clock it returns
either null or a decoded token; no internal failure escapes to the
caller (in the embedding every thrown error is represented in the Except
layer and caught, so the result is always one of the two forms). -/
theorem C7_totality (token : String) (now : Int) :
    decodeJWT token now = none ∨ ∃ d, decodeJWT token now = some d := by
  cases decodeJWT token now
  · exact .inl rfl
  · exact .inr ⟨_, rfl⟩

/-- C10: for every input and clock, a successfully decoded token with
isExpired true has a non-null expiresAt. -/
theorem C10_expired_has_expiresAt (token : String) (now : Int) (d : DecodedJWT)
    (hd : decodeJWT token now = some d) (hex : d.isExpired = true) :
    d.expiresAt ≠ none := by
  obtain ⟨p0, p1, p2, hT, pT, header, payload, _, _, _, _, _, hp, rfl⟩ := decode_inv hd
  simp only at hex ⊢
  unfold expFlag at hex
  unfold expDerived
  by_cases hc : truthyOpt (propOf payload "exp") = true
  · simp [hc]
  · simp [hc] at hex

/-- C10 witness: a token whose exp is one (epoch second 1), decoded at
2000 ms, is expired and indeed carries a non-null expiresAt. -/
theorem C10_expired_has_expiresAt_witness :
    (some (some (1000 : Int)) : Option (Option Int)) ≠ none :=
  C10_expired_has_expiresAt "e30.eyJleHAiOjF9.s" 2000
    ⟨Json.obj [], Json.obj [("exp", Json.num 1)], ['s'], true, some (some 1000), none⟩
    rfl rfl

/-- C8: for every successfully decoded token, a payload with no exp
property yields expiresAt null and isExpired false, and a payload with no
iat property yields issuedAt null. -/
theorem C8_missing_claims (token : String) (now : Int) (d : DecodedJWT)
    (hd : decodeJWT token now = some d) :
    (propOf d.payload "exp" = none → d.expiresAt = none ∧ d.isExpired = false) ∧
    (propOf d.payload "iat" = none → d.issuedAt = none) := by
  obtain ⟨p0, p1, p2, hT, pT, header, payload, _, _, _, _, _, hp, rfl⟩ := decode_inv hd
  simp only
  constructor
  · intro hn
    simp [expDerived, expFlag, hn, truthyOpt]
  · intro hn
    simp [iatDerived, hn, truthyOpt]

/-- C8 witness: the empty payload has neither exp nor iat, and its decode
carries expiresAt null, isExpired false and issuedAt null. -/
theorem C8_missing_claims_witness :
    ((none : Option (Option Int)) = none ∧ (false : Bool) = false) ∧
    (none : Option (Option Int)) = none := by
  have h := C8_missing_claims "e30.e30.s" 0
    ⟨Json.obj [], Json.obj [], ['s'], false, none, none⟩ rfl
  exact ⟨h.1 rfl, h.2 rfl⟩

/-- C6: whenever a successfully decoded token has a non-null expiresAt,
isExpired is exactly the strict comparison of that Date against the
decode-time clock: an expiry equal to the clock is not expired, a later
one is not expired, an earlier one is expired. -/
theorem C6_expiry_boundary (token : String) (now : Int) (d : DecodedJWT)
    (hd : decodeJWT token now = some d) (e : Option Int) (he : d.expiresAt = some e) :
    d.isExpired = jsDateLt e now ∧
    (e = some now → d.isExpired = false) ∧
    (∀ ms : Int, e = some ms → now < ms → d.isExpired = false) ∧
    (∀ ms : Int, e = some ms → ms < now → d.isExpired = true) := by
  obtain ⟨p0, p1, p2, hT, pT, header, payload, _, _, _, _, _, hp, rfl⟩ := decode_inv hd
  simp only at he ⊢
  have h1 : expFlag payload now = jsDateLt e now := by
    unfold expDerived at he
    unfold expFlag
    by_cases hc : truthyOpt (propOf payload "exp") = true
    · simp [hc] at he ⊢
      rw [he]
    · simp [hc] at he
  refine ⟨h1, ?_, ?_, ?_⟩
  · intro hee
    rw [h1, hee]
    simp [jsDateLt]
  · intro ms hee hlt
    rw [h1, hee]
    simp [jsDateLt]
    omega
  · intro ms hee hlt
    rw [h1, hee]
    simp [jsDateLt, hlt]

/-- C6 witness: exp of one epoch second decoded exactly at 1000 ms is not
expired (the boundary is strict). -/
theorem C6_expiry_boundary_witness : (false : Bool) = false :=
  (C6_expiry_boundary "e30.eyJleHAiOjF9.s" 1000
    ⟨Json.obj [], Json.obj [("exp", Json.num 1)], ['s'], false, some (some 1000), none⟩
    rfl (some 1000) rfl).2.1 rfl

/-- C1 counterexample: the token with payload exp equal to zero decodes
successfully with exp present and numeric, yet expiresAt is null and
isExpired is false — the source guards the derivation with JavaScript
truthiness, and zero is falsy, contradicting the claim that every numeric
exp (including 0) yields a non-null expiresAt. -/
theorem C1_counterexample :
    decodeJWT "e30.eyJleHAiOjB9.sig" 0 =
      some ⟨Json.obj [], Json.obj [("exp", Json.num 0)], "sig".data, false, none, none⟩ ∧
    propOf (Json.obj [("exp", Json.num 0)]) "exp" = some (Json.num 0) :=
  ⟨rfl, rfl⟩

/-- C1 (amended): for every successfully decoded token, expiresAt is
non-null iff payload.exp is present and truthy (so a numeric exp of zero,
an empty-string exp, false and null all yield expiresAt null and
isExpired false); for a truthy numeric exp the value is the Date built
from exp times 1000 milliseconds. -/
theorem C1_expiresAt_truthiness (token : String) (now : Int) (d : DecodedJWT)
    (hd : decodeJWT token now = some d) :
    (d.expiresAt ≠ none ↔ truthyOpt (propOf d.payload "exp") = true) ∧
    (∀ n : Int, propOf d.payload "exp" = some (Json.num n) → n ≠ 0 →
      d.expiresAt = some (jsDateOfMs (some (n * 1000)))) ∧
    (truthyOpt (propOf d.payload "exp") = false →
      d.expiresAt = none ∧ d.isExpired = false) := by
  obtain ⟨p0, p1, p2, hT, pT, header, payload, _, _, _, _, _, hp, rfl⟩ := decode_inv hd
  simp only
  refine ⟨?_, ?_, ?_⟩
  · by_cases hc : truthyOpt (propOf payload "exp") = true <;> simp [expDerived, hc]
  · intro n hn hnz
    simp [expDerived, hn, truthyOpt, truthy, hnz, jsToNumber]
  · intro hf
    simp [expDerived, expFlag, hf]

/-- C1 witness: exp of one epoch second yields expiresAt of 1000 ms. -/
theorem C1_expiresAt_truthiness_witness :
    (some (some (1000 : Int)) : Option (Option Int)) = some (jsDateOfMs (some (1 * 1000))) :=
  (C1_expiresAt_truthiness "e30.eyJleHAiOjF9.s" 0
    ⟨Json.obj [], Json.obj [("exp", Json.num 1)], ['s'], false, some (some 1000), none⟩
    rfl).2.1 1 rfl (by decide)

/-- C2 counterexample: an input whose header segment decodes to the
top-level array text and whose payload segment decodes to an object is
decoded successfully — a top-level array does not cause a decode
failure, contradicting the claim. -/
theorem C2_counterexample :
    decodeJWT "W10.e30.s" 0 =
      some ⟨Json.arr [], Json.obj [], ['s'], false, none, none⟩ := rfl

/-- C2 (amended): decode success does not constrain the top-level JSON
kind: whenever the three segments are present and the two texts parse as
JSON, the decode succeeds for every header value (arrays, scalars, null
included) and every non-null payload value, reproducing both; the only
top-level value rejected is a payload of null, whose property access
throws and turns the decode into a failure. -/
theorem C2_toplevel_kinds (token : String) (now : Int) (p0 p1 p2 hText pText : List Char)
    (header payload : Json)
    (hs : splitDot (jsTrimList token.data) = [p0, p1, p2])
    (hb0 : base64UrlDecode p0 = .ok hText) (hj0 : jsonParse hText = some header)
    (hb1 : base64UrlDecode p1 = .ok pText) (hj1 : jsonParse pText = some payload) :
    (payload ≠ Json.null →
      ∃ d, decodeJWT token now = some d ∧ d.header = header ∧ d.payload = payload) ∧
    (payload = Json.null → decodeJWT token now = none) := by
  constructor
  · intro hp
    exact ⟨_, decode_eq_some now hs hb0 hj0 hb1 hj1 hp, rfl, rfl⟩
  · intro hp
    subst hp
    unfold decodeJWT
    rw [hs]
    simp only
    rw [hb0]
    simp only
    rw [hj0]
    simp only
    rw [hb1]
    simp only
    rw [hj1]
    simp only
    rw [decodeBody_null]

/-- C2 witness: the array-headed token decodes successfully with the
array reproduced as the header. -/
theorem C2_toplevel_kinds_witness :
    ∃ d, decodeJWT "W10.e30.s" 0 = some d ∧
      d.header = Json.arr [] ∧ d.payload = Json.obj [] :=
  (C2_toplevel_kinds "W10.e30.s" 0 _ _ _ _ _ (Json.arr []) (Json.obj [])
    rfl rfl rfl rfl rfl).1 (by intro hc; cases hc)

theorem mapB64_isSome (l : List Char) :
    (mapB64 l).isSome = l.all (fun c => (b64Index c).isSome) := by
  induction l with
  | nil => rfl
  | cons c cs ih =>
    cases hc : b64Index c <;>
      cases hm : mapB64 cs <;>
      simp_all [mapB64]

/-- C5 counterexample: the segment Q, Q, space, Q needs no padding, and
its padded form contains a space — a character outside the base64
alphabet and not a padding sign, so by the claim the decode must fail;
but atob strips ASCII whitespace before validating, and the decode
succeeds, returning the two bytes 65 and 4. -/
theorem C5_counterexample :
    base64UrlDecode "QQ Q".data = .ok [Char.ofNat 65, Char.ofNat 4] ∧
    Char.ofNat 32 ∈ padB64 ("QQ Q".data.map urlToStd) ∧
    b64Index (Char.ofNat 32) = none ∧
    Char.ofNat 32 ≠ Char.ofNat 61 := by
  refine ⟨rfl, ?_, rfl, by decide⟩
  show Char.ofNat 32 ∈ "QQ Q".data
  decide

/-- C5 (amended): base64UrlDecode replaces dash by plus and underscore by
slash, right-pads with the padding sign to a multiple of four, and hands
the result to atob, which implements the forgiving base64 decode: ASCII
whitespace is stripped first and up to two trailing padding signs are
dropped, and the decode fails exactly when what remains has length 1 mod
4 or contains a character outside the base64 alphabet (so whitespace
inside a segment does not by itself cause a failure). -/
theorem C5_base64url_behaviour (s : List Char) :
    base64UrlDecode s = atob (padB64 (s.map urlToStd)) ∧
    ((∃ r, base64UrlDecode s = .ok r) ↔
      forgivingValid (padB64 (s.map urlToStd)) = true) := by
  refine ⟨rfl, ?_⟩
  unfold base64UrlDecode atob forgivingValid
  set d := stripPad ((padB64 (s.map urlToStd)).filter fun c => !asciiWs c) with hdd
  by_cases h1 : d.length % 4 = 1
  · simp [h1]
  · simp only [h1, if_false]
    cases hm : mapB64 d with
    | none =>
      have hall := mapB64_isSome d
      rw [hm] at hall
      simp only [Option.isSome_none] at hall
      simp [← hall, h1]
    | some vals =>
      have hall := mapB64_isSome d
      rw [hm] at hall
      simp only [Option.isSome_some] at hall
      simp [← hall, h1]

/-- C9: the claim row renders exp, iat and nbf values that are numbers as
the locale-formatted Date built from the value taken as epoch seconds,
and renders every other name and value combination (a non-numeric value
under those names included) as the compact JSON stringification of the
value.  The locale rendering itself is environment data and is abstracted
as the function argument fmt. -/
theorem C9_claim_formatting (fmt : Option Int → String) (name : String) (value : Json) :
    (∀ n : Int, value = Json.num n → (name = "exp" ∨ name = "iat" ∨ name = "nbf") →
      displayValue fmt name value = fmt (jsDateOfMs (some (n * 1000)))) ∧
    (((∀ n : Int, value ≠ Json.num n) ∨ (name ≠ "exp" ∧ name ≠ "iat" ∧ name ≠ "nbf")) →
      displayValue fmt name value = String.mk (jsonStringify value)) := by
  constructor
  · intro n hv hn
    subst hv
    rcases hn with rfl | rfl | rfl <;>
      simp [displayValue, isTimestampClaim, jsToNumber]
  · intro h
    rcases h with h | ⟨h1, h2, h3⟩
    · cases value with
      | num n => exact absurd rfl (h n)
      | _ => simp [displayValue, isTimestampClaim]
    · simp [displayValue, isTimestampClaim, h1, h2, h3]

/-- C9 witness: the exp claim with numeric value two renders through the
locale formatter at 2000 ms. -/
theorem C9_claim_formatting_witness :
    displayValue (fun _ => "t") "exp" (Json.num 2) =
      (fun _ => "t") (jsDateOfMs (some (2 * 1000))) :=
  (C9_claim_formatting (fun _ => "t") "exp" (Json.num 2)).1 2 rfl (Or.inl rfl)

/-! ## Character arithmetic -/

theorem toNat_ofNat (k : Nat) (h : k < 55296) : (Char.ofNat k).toNat = k := by
  unfold Char.ofNat
  split
  · rfl
  · simp [Nat.isValidChar] at *
    omega

theorem charEq (c : Char) (k : Nat) (h : k < 55296) : (c = Char.ofNat k) ↔ c.toNat = k := by
  constructor
  · rintro rfl
    exact toNat_ofNat k h
  · intro h2
    have h3 := Char.ofNat_toNat c
    rw [← h3, h2]

theorem charNe (c : Char) (k : Nat) (h : k < 55296) (hne : c.toNat ≠ k) :
    (c = Char.ofNat k) = False := by
  simp [charEq c k h, hne]

theorem skipWs_cons (c : Char) (l : List Char) (h : jsonWs c = false) :
    skipWs (c :: l) = c :: l := by
  simp [skipWs, h]

theorem jsonWs_of_digit (c : Char) (h1 : 48 ≤ c.toNat) (h2 : c.toNat ≤ 57) :
    jsonWs c = false := by
  simp only [jsonWs,
    charNe c 32 (by omega) (by omega), charNe c 9 (by omega) (by omega),
    charNe c 10 (by omega) (by omega), charNe c 13 (by omega) (by omega)]
  simp

/-! ## Decimal digit round-trip -/

theorem natDigitsAux_acc (n : Nat) : ∀ acc, natDigitsAux n acc = natDigits n ++ acc := by
  induction n using Nat.strong_induction_on with
  | _ n ih =>
    intro acc
    by_cases h : n < 10
    · conv_lhs => rw [natDigitsAux]
      conv_rhs => rw [natDigits, natDigitsAux]
      simp [h]
    · conv_lhs => rw [natDigitsAux]
      conv_rhs => rw [natDigits, natDigitsAux]
      simp only [h, dite_false]
      rw [ih (n / 10) (Nat.div_lt_self (by omega) (by omega)) (Char.ofNat (48 + n % 10) :: acc),
          ih (n / 10) (Nat.div_lt_self (by omega) (by omega)) [Char.ofNat (48 + n % 10)]]
      simp

theorem natDigits_step (n : Nat) (h : ¬ n < 10) :
    natDigits n = natDigits (n / 10) ++ [Char.ofNat (48 + n % 10)] := by
  rw [natDigits, natDigitsAux]
  simp only [h, dite_false]
  exact natDigitsAux_acc (n / 10) [Char.ofNat (48 + n % 10)]

theorem natDigits_small (n : Nat) (h : n < 10) : natDigits n = [Char.ofNat (48 + n)] := by
  rw [natDigits, natDigitsAux]
  simp [h]

theorem natDigits_all_digit (n : Nat) : ∀ c ∈ natDigits n, 48 ≤ c.toNat ∧ c.toNat ≤ 57 := by
  induction n using Nat.strong_induction_on with
  | _ n ih =>
    by_cases h : n < 10
    · rw [natDigits_small n h]
      intro c hc
      simp at hc
      subst hc
      rw [toNat_ofNat (48 + n) (by omega)]
      omega
    · rw [natDigits_step n h]
      intro c hc
      rcases List.mem_append.mp hc with hc | hc
      · exact ih (n / 10) (Nat.div_lt_self (by omega) (by omega)) c hc
      · simp at hc
        subst hc
        rw [toNat_ofNat (48 + n % 10) (by omega)]
        omega

theorem natDigits_cons (n : Nat) :
    ∃ c t, natDigits n = c :: t ∧ 48 ≤ c.toNat ∧ c.toNat ≤ 57 ∧ (n ≠ 0 → c.toNat ≠ 48) := by
  induction n using Nat.strong_induction_on with
  | _ n ih =>
    by_cases h : n < 10
    · refine ⟨Char.ofNat (48 + n), [], natDigits_small n h, ?_, ?_, ?_⟩ <;>
        rw [toNat_ofNat (48 + n) (by omega)] <;> omega
    · obtain ⟨c, t, hct, h1, h2, h3⟩ := ih (n / 10) (Nat.div_lt_self (by omega) (by omega))
      refine ⟨c, t ++ [Char.ofNat (48 + n % 10)], ?_, h1, h2, fun _ => h3 (by omega)⟩
      rw [natDigits_step n h, hct]
      simp

theorem digitsToNat_append_single (ds : List Char) (c : Char) :
    digitsToNat (ds ++ [c]) = digitsToNat ds * 10 + (c.toNat - 48) := by
  simp [digitsToNat, List.foldl_append]

theorem digitsToNat_natDigits (n : Nat) : digitsToNat (natDigits n) = n := by
  induction n using Nat.strong_induction_on with
  | _ n ih =>
    by_cases h : n < 10
    · rw [natDigits_small n h]
      simp [digitsToNat, toNat_ofNat (48 + n) (by omega)]
    · rw [natDigits_step n h, digitsToNat_append_single,
        ih (n / 10) (Nat.div_lt_self (by omega) (by omega)),
        toNat_ofNat (48 + n % 10) (by omega)]
      omega

theorem spanDigits_append (ds rest : List Char)
    (hds : ∀ c ∈ ds, isDigitC c = true) (hr : goodTail rest) :
    spanDigits (ds ++ rest) = (ds, rest) := by
  induction ds with
  | nil =>
    cases rest with
    | nil => rfl
    | cons c t =>
      have : isDigitC c = false := hr
      simp [spanDigits, this]
  | cons d ds ih =>
    have hd := hds d (by simp)
    have hrec := ih (fun c hc => hds c (by simp [hc]))
    simp only [List.cons_append, spanDigits, hd, if_true, List.append_eq, hrec]

theorem isDigitC_natDigits (n : Nat) : ∀ c ∈ natDigits n, isDigitC c = true := by
  intro c hc
  have := natDigits_all_digit n c hc
  simp [isDigitC]
  omega

theorem parseNat_natDigits (n : Nat) (rest : List Char) (hr : goodTail rest) :
    parseNat (natDigits n ++ rest) = some (n, rest) := by
  obtain ⟨c, t, hct, h1, h2, h3⟩ := natDigits_cons n
  rw [parseNat, spanDigits_append (natDigits n) rest (isDigitC_natDigits n) hr]
  simp only [hct]
  by_cases h0 : n = 0
  · subst h0
    have : natDigits 0 = [Char.ofNat 48] := natDigits_small 0 (by omega)
    rw [this] at hct
    obtain ⟨rfl, rfl⟩ : c = Char.ofNat 48 ∧ t = [] := by
      cases hct
      exact ⟨rfl, rfl⟩
    simp [digitsToNat, toNat_ofNat 48 (by omega)]
  · have hc48 : (c = Char.ofNat 48) = False := charNe c 48 (by omega) (h3 h0)
    simp only [hc48, false_and, if_false]
    rw [← hct, digitsToNat_natDigits n]

/-! ## Parser dispatch lemmas -/

theorem goodTail_cons (c : Char) (r : List Char) (h : isDigitC c = false) :
    goodTail (c :: r) := h

theorem goodTail_nil : goodTail [] := trivial

theorem parseVal_head_digit (fuel : Nat) (c : Char) (l : List Char) (hc : isDigitC c = true) :
    parseVal (fuel + 1) (c :: l) =
      (parseNat (c :: l)).map (fun p => (Json.num (p.1 : Int), p.2)) := by
  have hd : 48 ≤ c.toNat ∧ c.toNat ≤ 57 := by
    simpa [isDigitC] using hc
  obtain ⟨hd1, hd2⟩ := hd
  conv_lhs => rw [parseVal]
  rw [skipWs_cons c l (jsonWs_of_digit c hd1 hd2)]
  simp only [charNe c 110 (by omega) (by omega), charNe c 116 (by omega) (by omega),
    charNe c 102 (by omega) (by omega), charNe c 34 (by omega) (by omega),
    charNe c 91 (by omega) (by omega), charNe c 123 (by omega) (by omega),
    charNe c 45 (by omega) (by omega), if_false, hc, if_true]

theorem parseHex_hexDigit (v : Nat) (h : v < 16) : parseHex (hexDigit v) = some v := by
  rw [hexDigit]
  by_cases h10 : v < 10
  · rw [if_pos h10, parseHex]
    rw [toNat_ofNat (48 + v) (by omega)]
    simp only [show (48 ≤ 48 + v ∧ 48 + v ≤ 57) = True by simp; omega, if_true]
    congr 1
    omega
  · rw [if_neg h10, parseHex]
    rw [toNat_ofNat (87 + v) (by omega)]
    simp only [show (48 ≤ 87 + v ∧ 87 + v ≤ 57) = False by simp; omega, if_false,
      show (97 ≤ 87 + v ∧ 87 + v ≤ 102) = True by simp; omega, if_true]
    congr 1
    omega

theorem parseUEsc_eq (e1 e2 e3 e4 : Char) (r2 : List Char) (a b c2 d : Nat)
    (ha : parseHex e1 = some a) (hb : parseHex e2 = some b)
    (hc : parseHex e3 = some c2) (hd : parseHex e4 = some d)
    (hn : ((a * 16 + b) * 16 + c2) * 16 + d < 55296) :
    parseUEsc (e1 :: e2 :: e3 :: e4 :: r2) =
      consStr (Char.ofNat (((a * 16 + b) * 16 + c2) * 16 + d)) (parseStrBody r2) := by
  rw [parseUEsc, ha, hb, hc, hd]
  simp only [if_pos hn]

theorem parseStrBody_ser (cs : List Char) (rest : List Char) :
    parseStrBody ((cs.map escapeChar).flatten ++ Char.ofNat 34 :: rest) = some (cs, rest) := by
  induction cs with
  | nil => simp [parseStrBody]
  | cons c cs ih =>
    have hflat : ((c :: cs).map escapeChar).flatten ++ Char.ofNat 34 :: rest =
        escapeChar c ++ ((cs.map escapeChar).flatten ++ Char.ofNat 34 :: rest) := by
      simp
    rw [hflat]
    by_cases h1 : c = Char.ofNat 34
    · subst h1
      simp [escapeChar, parseStrBody, parseEsc, ih, consStr]
    · by_cases h2 : c = Char.ofNat 92
      · subst h2
        simp [escapeChar, parseStrBody, parseEsc, ih, consStr]
      · by_cases h3 : c = Char.ofNat 8
        · subst h3
          simp [escapeChar, parseStrBody, parseEsc, ih, consStr]
        · by_cases h4 : c = Char.ofNat 9
          · subst h4
            simp [escapeChar, parseStrBody, parseEsc, ih, consStr]
          · by_cases h5 : c = Char.ofNat 10
            · subst h5
              simp [escapeChar, parseStrBody, parseEsc, ih, consStr]
            · by_cases h6 : c = Char.ofNat 12
              · subst h6
                simp [escapeChar, parseStrBody, parseEsc, ih, consStr]
              · by_cases h7 : c = Char.ofNat 13
                · subst h7
                  simp [escapeChar, parseStrBody, parseEsc, ih, consStr]
                · by_cases h8 : c.toNat < 32
                  · have hesc : escapeChar c =
                        [Char.ofNat 92, Char.ofNat 117, Char.ofNat 48, Char.ofNat 48,
                         hexDigit (c.toNat / 16), hexDigit (c.toNat % 16)] := by
                      rw [escapeChar, if_neg h1, if_neg h2, if_neg h3, if_neg h4, if_neg h5,
                        if_neg h6, if_neg h7, if_pos h8]
                    rw [hesc]
                    simp only [List.cons_append, List.nil_append]
                    simp only [parseStrBody, parseEsc]
                    norm_num
                    rw [parseUEsc_eq (Char.ofNat 48) (Char.ofNat 48)
                      (hexDigit (c.toNat / 16)) (hexDigit (c.toNat % 16)) _ 0 0
                      (c.toNat / 16) (c.toNat % 16) rfl rfl
                      (parseHex_hexDigit (c.toNat / 16) (by omega))
                      (parseHex_hexDigit (c.toNat % 16) (by omega))
                      (by omega)]
                    rw [show ((0 * 16 + 0) * 16 + c.toNat / 16) * 16 + c.toNat % 16 = c.toNat
                      from by omega]
                    rw [Char.ofNat_toNat c, ih]
                    rfl
                  · have hesc : escapeChar c = [c] := by
                      rw [escapeChar, if_neg h1, if_neg h2, if_neg h3, if_neg h4, if_neg h5,
                        if_neg h6, if_neg h7, if_neg h8]
                    rw [hesc]
                    simp only [List.cons_append, List.nil_append]
                    rw [parseStrBody, if_neg h1, if_neg h2,
                      if_neg (show ¬ c.toNat < 32 from h8), ih]
                    rfl
theorem ser_head (j : Json) :
    ∃ c t, jsonStringify j = c :: t ∧ jsonWs c = false ∧ (c = Char.ofNat 93) = False := by
  cases j with
  | null => exact ⟨Char.ofNat 110, _, rfl, by decide, by decide⟩
  | bool b =>
    cases b with
    | false => exact ⟨Char.ofNat 102, _, rfl, by decide, by decide⟩
    | true => exact ⟨Char.ofNat 116, _, rfl, by decide, by decide⟩
  | num n =>
    by_cases hn : n < 0
    · refine ⟨Char.ofNat 45, natDigits n.natAbs, ?_, by decide, by decide⟩
      show intChars n = _
      rw [intChars, if_pos hn]
    · obtain ⟨c, t, hct, h1, h2, _⟩ := natDigits_cons n.natAbs
      refine ⟨c, t, ?_, jsonWs_of_digit c h1 h2, charNe c 93 (by omega) (by omega)⟩
      show intChars n = _
      rw [intChars, if_neg hn, hct]
  | str s => exact ⟨Char.ofNat 34, _, rfl, by decide, by decide⟩
  | arr xs => exact ⟨Char.ofNat 91, _, rfl, by decide, by decide⟩
  | obj ms => exact ⟨Char.ofNat 123, _, rfl, by decide, by decide⟩

theorem parseVal_arr_cons (fuel : Nat) (c : Char) (r2 : List Char)
    (hws : jsonWs c = false) (hne : (c = Char.ofNat 93) = False) :
    parseVal (fuel + 1) (Char.ofNat 91 :: c :: r2) =
      (parseElems fuel (c :: r2)).map (fun p => (Json.arr p.1, p.2)) := by
  conv_lhs => rw [parseVal]
  rw [skipWs_cons (Char.ofNat 91) (c :: r2) (by decide)]
  simp only [show (Char.ofNat 91 = Char.ofNat 110) = False by decide, if_false,
    show (Char.ofNat 91 = Char.ofNat 116) = False by decide,
    show (Char.ofNat 91 = Char.ofNat 102) = False by decide,
    show (Char.ofNat 91 = Char.ofNat 34) = False by decide,
    show (Char.ofNat 91 = Char.ofNat 91) = True by decide, if_true,
    skipWs_cons c r2 hws, hne]

theorem parseVal_obj_cons (fuel : Nat) (c : Char) (r2 : List Char)
    (hws : jsonWs c = false) (hne : (c = Char.ofNat 125) = False) :
    parseVal (fuel + 1) (Char.ofNat 123 :: c :: r2) =
      (parseMembers fuel (c :: r2)).map (fun p => (Json.obj p.1, p.2)) := by
  conv_lhs => rw [parseVal]
  rw [skipWs_cons (Char.ofNat 123) (c :: r2) (by decide)]
  simp only [show (Char.ofNat 123 = Char.ofNat 110) = False by decide, if_false,
    show (Char.ofNat 123 = Char.ofNat 116) = False by decide,
    show (Char.ofNat 123 = Char.ofNat 102) = False by decide,
    show (Char.ofNat 123 = Char.ofNat 34) = False by decide,
    show (Char.ofNat 123 = Char.ofNat 91) = False by decide,
    show (Char.ofNat 123 = Char.ofNat 123) = True by decide, if_true,
    skipWs_cons c r2 hws, hne]

theorem stringifyMembers_head (m : String × Json) (ms : List (String × Json)) :
    ∃ u, stringifyMembers (m :: ms) = Char.ofNat 34 :: u := by
  obtain ⟨k, v⟩ := m
  cases ms with
  | nil =>
    refine ⟨(k.data.map escapeChar).flatten ++ [Char.ofNat 34] ++
      Char.ofNat 58 :: jsonStringify v, ?_⟩
    show quoteString k ++ Char.ofNat 58 :: jsonStringify v = _
    rw [quoteString]
    simp
  | cons m2 ms2 =>
    refine ⟨(k.data.map escapeChar).flatten ++ [Char.ofNat 34] ++
      Char.ofNat 58 :: jsonStringify v ++ Char.ofNat 44 :: stringifyMembers (m2 :: ms2), ?_⟩
    show quoteString k ++ Char.ofNat 58 :: jsonStringify v ++
      Char.ofNat 44 :: stringifyMembers (m2 :: ms2) = _
    rw [quoteString]
    simp

mutual
theorem parse_ser : ∀ (j : Json) (fuel : Nat) (rest : List Char),
    sizeJ j ≤ fuel → goodTail rest →
    parseVal fuel (jsonStringify j ++ rest) = some (j, rest)
  | j, 0, _, hf, _ => absurd hf (by cases j <;> simp [sizeJ])
  | .null, fuel + 1, rest, _, _ => rfl
  | .bool true, fuel + 1, rest, _, _ => rfl
  | .bool false, fuel + 1, rest, _, _ => rfl
  | .num n, fuel + 1, rest, _, hr => by
    show parseVal (fuel + 1) (intChars n ++ rest) = some (.num n, rest)
    by_cases hn : n < 0
    · rw [intChars, if_pos hn, List.cons_append]
      have hstep : parseVal (fuel + 1) (Char.ofNat 45 :: (natDigits n.natAbs ++ rest)) =
          (parseNat (natDigits n.natAbs ++ rest)).map
            (fun p => (Json.num (-(p.1 : Int)), p.2)) := rfl
      rw [hstep, parseNat_natDigits n.natAbs rest hr]
      show some (Json.num (-(n.natAbs : Int)), rest) = some (Json.num n, rest)
      rw [show (-(n.natAbs : Int)) = n from by omega]
    · rw [intChars, if_neg hn]
      obtain ⟨c, t, hct, h1, h2, _⟩ := natDigits_cons n.natAbs
      rw [hct, List.cons_append,
        parseVal_head_digit fuel c (t ++ rest) (by simp only [isDigitC]; simp; omega),
        ← List.cons_append, ← hct, parseNat_natDigits n.natAbs rest hr]
      show some (Json.num ((n.natAbs : Int)), rest) = some (Json.num n, rest)
      rw [show ((n.natAbs : Int)) = n from by omega]
  | .str s, fuel + 1, rest, _, _ => by
    show parseVal (fuel + 1) (quoteString s ++ rest) = some (.str s, rest)
    have hstep : parseVal (fuel + 1) (quoteString s ++ rest) =
        (parseStrBody (((s.data.map escapeChar).flatten ++ [Char.ofNat 34]) ++ rest)).map
          (fun p => (Json.str (String.mk p.1), p.2)) := rfl
    rw [hstep, List.append_assoc, List.singleton_append, parseStrBody_ser]
    rfl
  | .arr [], fuel + 1, rest, _, _ => rfl
  | .arr (x :: xs), fuel + 1, rest, hf, _ => by
    obtain ⟨c, t, hct, hws, hne⟩ := ser_head x
    obtain ⟨u, hu⟩ : ∃ u, stringifyElems (x :: xs) = c :: u := by
      cases xs with
      | nil => exact ⟨t, by rw [show stringifyElems [x] = jsonStringify x from rfl, hct]⟩
      | cons y ys =>
        refine ⟨t ++ Char.ofNat 44 :: stringifyElems (y :: ys), ?_⟩
        rw [show stringifyElems (x :: y :: ys) =
          jsonStringify x ++ Char.ofNat 44 :: stringifyElems (y :: ys) from rfl, hct]
        simp
    have hsplit : jsonStringify (Json.arr (x :: xs)) ++ rest =
        Char.ofNat 91 :: c :: (u ++ Char.ofNat 93 :: rest) :=
      calc jsonStringify (Json.arr (x :: xs)) ++ rest
          = (Char.ofNat 91 :: (stringifyElems (x :: xs) ++ [Char.ofNat 93])) ++ rest := rfl
        _ = Char.ofNat 91 :: c :: (u ++ Char.ofNat 93 :: rest) := by rw [hu]; simp
    have hsz : elemsSize (x :: xs) ≤ fuel := by
      have h2 := hf
      simp only [sizeJ] at h2
      omega
    rw [hsplit, parseVal_arr_cons fuel c _ hws hne, ← List.cons_append, ← hu,
      elems_ser (x :: xs) fuel rest (by simp) hsz]
    rfl
  | .obj [], fuel + 1, rest, _, _ => rfl
  | .obj (m :: ms), fuel + 1, rest, hf, _ => by
    obtain ⟨u, hu⟩ := stringifyMembers_head m ms
    have hsplit : jsonStringify (Json.obj (m :: ms)) ++ rest =
        Char.ofNat 123 :: Char.ofNat 34 :: (u ++ Char.ofNat 125 :: rest) :=
      calc jsonStringify (Json.obj (m :: ms)) ++ rest
          = (Char.ofNat 123 :: (stringifyMembers (m :: ms) ++ [Char.ofNat 125])) ++ rest := rfl
        _ = Char.ofNat 123 :: Char.ofNat 34 :: (u ++ Char.ofNat 125 :: rest) := by
            rw [hu]; simp
    have hsz : membersSize (m :: ms) ≤ fuel := by
      have h2 := hf
      simp only [sizeJ] at h2
      omega
    rw [hsplit, parseVal_obj_cons fuel (Char.ofNat 34) _ (by decide) (by decide),
      ← List.cons_append, ← hu, members_ser (m :: ms) fuel rest (by simp) hsz]
    rfl

theorem elems_ser : ∀ (xs : List Json) (fuel : Nat) (rest : List Char),
    xs ≠ [] → elemsSize xs ≤ fuel →
    parseElems fuel (stringifyElems xs ++ Char.ofNat 93 :: rest) = some (xs, rest)
  | [], _, _, hne, _ => absurd rfl hne
  | x :: xs, 0, _, _, hf => by
    exfalso
    simp only [elemsSize] at hf
    omega
  | [x], fuel + 1, rest, _, hf => by
    have hx : sizeJ x ≤ fuel := by
      simp only [elemsSize] at hf
      omega
    conv_lhs => rw [parseElems]
    rw [show stringifyElems [x] ++ Char.ofNat 93 :: rest =
      jsonStringify x ++ Char.ofNat 93 :: rest from rfl]
    rw [parse_ser x fuel (Char.ofNat 93 :: rest) hx (goodTail_cons _ _ (by decide))]
    simp [skipWs, jsonWs]
  | x :: y :: ys, fuel + 1, rest, _, hf => by
    have hx : sizeJ x ≤ fuel := by
      simp only [elemsSize] at hf
      omega
    have hrest : elemsSize (y :: ys) ≤ fuel := by
      simp only [elemsSize, sizeJ] at hf ⊢
      have hp : 1 ≤ sizeJ x := by cases x <;> simp [sizeJ]
      omega
    conv_lhs => rw [parseElems]
    rw [show stringifyElems (x :: y :: ys) ++ Char.ofNat 93 :: rest =
        jsonStringify x ++
          (Char.ofNat 44 :: (stringifyElems (y :: ys) ++ Char.ofNat 93 :: rest)) from by
      rw [show stringifyElems (x :: y :: ys) =
        jsonStringify x ++ Char.ofNat 44 :: stringifyElems (y :: ys) from rfl]
      simp]
    rw [parse_ser x fuel _ hx (goodTail_cons _ _ (by decide))]
    simp only [skipWs_cons (Char.ofNat 44) _ (by decide),
      show (Char.ofNat 44 = Char.ofNat 44) = True by decide, if_true]
    rw [elems_ser (y :: ys) fuel rest (by simp) hrest]

theorem members_ser : ∀ (ms : List (String × Json)) (fuel : Nat) (rest : List Char),
    ms ≠ [] → membersSize ms ≤ fuel →
    parseMembers fuel (stringifyMembers ms ++ Char.ofNat 125 :: rest) = some (ms, rest)
  | [], _, _, hne, _ => absurd rfl hne
  | m :: ms, 0, _, _, hf => by
    exfalso
    simp only [membersSize] at hf
    omega
  | [(k, v)], fuel + 1, rest, _, hf => by
    have hv : sizeJ v ≤ fuel := by
      simp only [membersSize] at hf
      omega
    conv_lhs => rw [parseMembers]
    rw [show stringifyMembers [(k, v)] ++ Char.ofNat 125 :: rest =
        Char.ofNat 34 :: ((k.data.map escapeChar).flatten ++ Char.ofNat 34 ::
          (Char.ofNat 58 :: (jsonStringify v ++ Char.ofNat 125 :: rest))) from by
      show (quoteString k ++ Char.ofNat 58 :: jsonStringify v) ++ Char.ofNat 125 :: rest = _
      rw [quoteString]
      simp]
    simp only [skipWs_cons (Char.ofNat 34) _ (by decide),
      show (Char.ofNat 34 = Char.ofNat 34) = True by decide, if_true]
    rw [parseStrBody_ser]
    simp only [skipWs_cons (Char.ofNat 58) _ (by decide),
      show (Char.ofNat 58 = Char.ofNat 58) = True by decide, if_true]
    rw [parse_ser v fuel _ hv (goodTail_cons _ _ (by decide))]
    simp only [skipWs_cons (Char.ofNat 125) _ (by decide),
      show (Char.ofNat 125 = Char.ofNat 44) = False by decide, if_false,
      show (Char.ofNat 125 = Char.ofNat 125) = True by decide, if_true]
  | (k, v) :: m2 :: ms2, fuel + 1, rest, _, hf => by
    have hv : sizeJ v ≤ fuel := by
      simp only [membersSize] at hf
      omega
    have hrest : membersSize (m2 :: ms2) ≤ fuel := by
      simp only [membersSize] at hf ⊢
      have hp : 1 ≤ sizeJ v := by cases v <;> simp [sizeJ]
      omega
    conv_lhs => rw [parseMembers]
    rw [show stringifyMembers ((k, v) :: m2 :: ms2) ++ Char.ofNat 125 :: rest =
        Char.ofNat 34 :: ((k.data.map escapeChar).flatten ++ Char.ofNat 34 ::
          (Char.ofNat 58 :: (jsonStringify v ++ Char.ofNat 44 ::
            (stringifyMembers (m2 :: ms2) ++ Char.ofNat 125 :: rest)))) from by
      show (quoteString k ++ Char.ofNat 58 :: jsonStringify v ++
        Char.ofNat 44 :: stringifyMembers (m2 :: ms2)) ++ Char.ofNat 125 :: rest = _
      rw [quoteString]
      simp]
    simp only [skipWs_cons (Char.ofNat 34) _ (by decide),
      show (Char.ofNat 34 = Char.ofNat 34) = True by decide, if_true]
    rw [parseStrBody_ser]
    simp only [skipWs_cons (Char.ofNat 58) _ (by decide),
      show (Char.ofNat 58 = Char.ofNat 58) = True by decide, if_true]
    rw [parse_ser v fuel _ hv (goodTail_cons _ _ (by decide))]
    simp only [skipWs_cons (Char.ofNat 44) _ (by decide),
      show (Char.ofNat 44 = Char.ofNat 44) = True by decide, if_true]
    rw [members_ser (m2 :: ms2) fuel rest (by simp) hrest]
end

mutual
theorem sizeJ_le : ∀ j : Json, sizeJ j + 1 ≤ 2 * (jsonStringify j).length
  | .null => by simp [sizeJ, jsonStringify]
  | .bool true => by simp [sizeJ, jsonStringify]
  | .bool false => by simp [sizeJ, jsonStringify]
  | .num n => by
    obtain ⟨c, t, hct, _, _, _⟩ := natDigits_cons n.natAbs
    simp only [sizeJ]
    show 2 ≤ 2 * (intChars n).length
    rw [intChars]
    by_cases hn : n < 0
    · rw [if_pos hn, hct]
      simp
    · rw [if_neg hn, hct]
      simp
  | .str s => by
    simp only [sizeJ]
    show 2 ≤ 2 * (quoteString s).length
    rw [quoteString]
    simp
  | .arr [] => by simp [sizeJ, elemsSize, jsonStringify, stringifyElems]
  | .arr (x :: xs) => by
    have he := elemsSize_le (x :: xs) (by simp)
    simp only [sizeJ]
    show 1 + elemsSize (x :: xs) + 1 ≤
      2 * ((Char.ofNat 91 :: (stringifyElems (x :: xs) ++ [Char.ofNat 93])).length)
    simp only [List.length_cons, List.length_append, List.length_singleton]
    omega
  | .obj [] => by simp [sizeJ, membersSize, jsonStringify, stringifyMembers]
  | .obj (m :: ms) => by
    have he := membersSize_le (m :: ms) (by simp)
    simp only [sizeJ]
    show 1 + membersSize (m :: ms) + 1 ≤
      2 * ((Char.ofNat 123 :: (stringifyMembers (m :: ms) ++ [Char.ofNat 125])).length)
    simp only [List.length_cons, List.length_append, List.length_singleton]
    omega

theorem elemsSize_le : ∀ (xs : List Json), xs ≠ [] →
    elemsSize xs ≤ 2 * (stringifyElems xs).length + 1
  | [], hne => absurd rfl hne
  | [x], _ => by
    have hs := sizeJ_le x
    show sizeJ x + 1 + elemsSize [] ≤ 2 * (stringifyElems [x]).length + 1
    rw [show stringifyElems [x] = jsonStringify x from rfl]
    simp only [elemsSize]
    omega
  | x :: y :: ys, _ => by
    have hs := sizeJ_le x
    have he := elemsSize_le (y :: ys) (by simp)
    show sizeJ x + 1 + elemsSize (y :: ys) ≤ 2 * (stringifyElems (x :: y :: ys)).length + 1
    rw [show stringifyElems (x :: y :: ys) =
      jsonStringify x ++ Char.ofNat 44 :: stringifyElems (y :: ys) from rfl]
    simp only [List.length_append, List.length_cons]
    omega

theorem membersSize_le : ∀ (ms : List (String × Json)), ms ≠ [] →
    membersSize ms ≤ 2 * (stringifyMembers ms).length + 1
  | [], hne => absurd rfl hne
  | [(k, v)], _ => by
    have hs := sizeJ_le v
    show sizeJ v + 1 + membersSize [] ≤ 2 * (stringifyMembers [(k, v)]).length + 1
    rw [show stringifyMembers [(k, v)] =
      quoteString k ++ Char.ofNat 58 :: jsonStringify v from rfl]
    simp only [membersSize, List.length_append, List.length_cons]
    omega
  | (k, v) :: m2 :: ms2, _ => by
    have hs := sizeJ_le v
    have hm := membersSize_le (m2 :: ms2) (by simp)
    show sizeJ v + 1 + membersSize (m2 :: ms2) ≤
      2 * (stringifyMembers ((k, v) :: m2 :: ms2)).length + 1
    rw [show stringifyMembers ((k, v) :: m2 :: ms2) = quoteString k ++
      Char.ofNat 58 :: jsonStringify v ++ Char.ofNat 44 :: stringifyMembers (m2 :: ms2) from rfl]
    simp only [List.length_append, List.length_cons]
    omega
end

theorem jsonParse_ser (j : Json) : jsonParse (jsonStringify j) = some j := by
  have hf : sizeJ j ≤ 2 * (jsonStringify j).length + 2 := by
    have := sizeJ_le j
    omega
  have h2 := parse_ser j (2 * (jsonStringify j).length + 2) [] hf goodTail_nil
  rw [List.append_nil] at h2
  rw [jsonParse, h2]
  rfl

/-! ## Base64 encode-decode round-trip -/

theorem b64Index_b64Char : ∀ v < 64, b64Index (b64Char v) = some v := by decide

theorem urlToStd_stdToUrl : ∀ v < 64, urlToStd (stdToUrl (b64Char v)) = b64Char v := by decide

theorem b64Char_not_ws : ∀ v < 64, asciiWs (b64Char v) = false := by decide

theorem b64Char_ne_pad : ∀ v < 64, b64Char v ≠ Char.ofNat 61 := by decide

theorem b64Char_ne_dot : ∀ v < 64, stdToUrl (b64Char v) ≠ Char.ofNat 46 := by decide

theorem b64Char_not_jsWs : ∀ v < 64, jsWs (stdToUrl (b64Char v)) = false := by decide

theorem encodeVals_lt : ∀ (l : List Nat), (∀ b ∈ l, b < 256) → ∀ v ∈ encodeVals l, v < 64
  | [], _, v, hv => by simp [encodeVals] at hv
  | [x], hb, v, hv => by
    have hx := hb x (by simp)
    simp only [encodeVals, List.mem_cons, List.not_mem_nil, or_false] at hv
    rcases hv with rfl | rfl <;> omega
  | [x, y], hb, v, hv => by
    have hx := hb x (by simp)
    have hy := hb y (by simp)
    simp only [encodeVals, List.mem_cons, List.not_mem_nil, or_false] at hv
    rcases hv with rfl | rfl | rfl <;> omega
  | x :: y :: z :: rest, hb, v, hv => by
    have hx := hb x (by simp)
    have hy := hb y (by simp)
    have hz := hb z (by simp)
    simp only [encodeVals, List.mem_cons] at hv
    rcases hv with rfl | rfl | rfl | rfl | hv
    · omega
    · omega
    · omega
    · omega
    · exact encodeVals_lt rest (fun b hb2 => hb b (by simp [hb2])) v hv

theorem b64Bytes_encodeVals : ∀ (l : List Nat), (∀ b ∈ l, b < 256) → b64Bytes (encodeVals l) = l
  | [], _ => rfl
  | [x], hb => by
    have hx := hb x (by simp)
    show b64Bytes [x / 4, (x % 4) * 16] = [x]
    rw [show b64Bytes [x / 4, (x % 4) * 16] = [(x / 4) * 4 + ((x % 4) * 16) / 16] from rfl]
    simp only [List.cons.injEq, and_true]
    omega
  | [x, y], hb => by
    have hx := hb x (by simp)
    have hy := hb y (by simp)
    show b64Bytes [x / 4, (x % 4) * 16 + y / 16, (y % 16) * 4] = [x, y]
    rw [show b64Bytes [x / 4, (x % 4) * 16 + y / 16, (y % 16) * 4] =
      [(x / 4) * 4 + ((x % 4) * 16 + y / 16) / 16,
       (((x % 4) * 16 + y / 16) % 16) * 16 + ((y % 16) * 4) / 4] from rfl]
    simp only [List.cons.injEq, and_true]
    constructor <;> omega
  | x :: y :: z :: rest, hb => by
    have hx := hb x (by simp)
    have hy := hb y (by simp)
    have hz := hb z (by simp)
    show b64Bytes (x / 4 :: ((x % 4) * 16 + y / 16) :: ((y % 16) * 4 + z / 64) ::
      z % 64 :: encodeVals rest) = x :: y :: z :: rest
    rw [b64Bytes, b64Bytes_encodeVals rest (fun b h2 => hb b (by simp [h2]))]
    simp only [List.cons.injEq, and_true]
    refine ⟨by omega, by omega, by omega⟩

theorem mapB64_map_b64Char (vs : List Nat) (h : ∀ v ∈ vs, v < 64) :
    mapB64 (vs.map b64Char) = some vs := by
  induction vs with
  | nil => rfl
  | cons v vs ih =>
    simp only [List.map_cons, mapB64]
    rw [b64Index_b64Char v (h v (by simp)), ih (fun u hu => h u (by simp [hu]))]

theorem encodeVals_mod_ne : ∀ l : List Nat, (encodeVals l).length % 4 ≠ 1
  | [] => by simp [encodeVals]
  | [x] => by simp [encodeVals]
  | [x, y] => by simp [encodeVals]
  | x :: y :: z :: rest => by
    have hrec := encodeVals_mod_ne rest
    simp only [encodeVals, List.length_cons]
    omega

theorem mem_padB64 (l : List Char) (c : Char) (hc : c ∈ padB64 l) :
    c ∈ l ∨ c = Char.ofNat 61 := by
  rw [padB64] at hc
  split_ifs at hc
  · rcases List.mem_append.mp hc with h | h
    · exact Or.inl h
    · right
      simpa using h
  · rcases List.mem_append.mp hc with h | h
    · exact Or.inl h
    · right
      simpa using h
  · rcases List.mem_append.mp hc with h | h
    · exact Or.inl h
    · right
      simpa using h
  · exact Or.inl hc

theorem dropWhile_eq_self_of (p : Char → Bool) :
    ∀ (l : List Char), (∀ c ∈ l, p c = false) → List.dropWhile p l = l
  | [], _ => rfl
  | c :: l, h => by
    simp [List.dropWhile_cons, h c (by simp)]

theorem stripPad_padB64 (l : List Char) (hmod : l.length % 4 ≠ 1)
    (hne : ∀ c ∈ l, c ≠ Char.ofNat 61) :
    stripPad (padB64 l) = l := by
  rw [padB64]
  by_cases h0 : l.length % 4 = 0
  · rw [if_neg (by omega), if_neg (by omega), if_neg (by omega)]
    rw [stripPad, if_pos h0]
    cases hr : l.reverse with
    | nil => simp
    | cons c1 t1 =>
      have hc1 : c1 ∈ l := by
        rw [← List.mem_reverse, hr]
        simp
      cases t1 with
      | nil => simp [hne c1 hc1]
      | cons c2 t2 => simp [hne c1 hc1]
  · by_cases h2 : l.length % 4 = 2
    · rw [if_neg (by omega), if_pos h2]
      rw [stripPad, if_pos (by simp; omega)]
      rw [show (l ++ [Char.ofNat 61, Char.ofNat 61]).reverse =
        Char.ofNat 61 :: Char.ofNat 61 :: l.reverse from by simp]
      simp
    · have h3 : l.length % 4 = 3 := by omega
      rw [if_neg (by omega), if_neg (by omega), if_pos h3]
      rw [stripPad, if_pos (by simp; omega)]
      rw [show (l ++ [Char.ofNat 61]).reverse = Char.ofNat 61 :: l.reverse from by simp]
      cases hr : l.reverse with
      | nil =>
        exfalso
        have : l = [] := by simpa using congrArg List.reverse hr
        rw [this] at h3
        simp at h3
      | cons c2 t2 =>
        have hc2 : c2 ∈ l := by
          rw [← List.mem_reverse, hr]
          simp
        simp only [show (Char.ofNat 61 = Char.ofNat 61) = True by decide, if_true,
          charNe c2 61 (by omega) (by
            intro hcon
            exact hne c2 hc2 ((charEq c2 61 (by omega)).mpr hcon)), if_false]
        rw [← hr, List.reverse_reverse]

theorem base64UrlDecode_encode (bytes : List Nat) (hb : ∀ b ∈ bytes, b < 256) :
    base64UrlDecode (b64UrlEncode bytes) = .ok (bytes.map Char.ofNat) := by
  have hv : ∀ v ∈ encodeVals bytes, v < 64 := encodeVals_lt bytes hb
  rw [base64UrlDecode, b64UrlEncode]
  rw [show ((encodeVals bytes).map fun v => stdToUrl (b64Char v)).map urlToStd =
      (encodeVals bytes).map b64Char from by
    rw [List.map_map]
    exact List.map_congr_left (fun v hvv => urlToStd_stdToUrl v (hv v hvv))]
  simp only [atob]
  rw [List.filter_eq_self.mpr (fun c hc => by
    rcases mem_padB64 _ c hc with hmem | rfl
    · obtain ⟨v, hvv, rfl⟩ := List.mem_map.mp hmem
      simp [b64Char_not_ws v (hv v hvv)]
    · decide)]
  rw [stripPad_padB64 _ (by rw [List.length_map]; exact encodeVals_mod_ne bytes)
    (fun c hc => by
      obtain ⟨v, hvv, rfl⟩ := List.mem_map.mp hc
      exact b64Char_ne_pad v (hv v hvv))]
  rw [if_neg (by rw [List.length_map]; exact encodeVals_mod_ne bytes)]
  rw [mapB64_map_b64Char _ hv]
  show Except.ok ((b64Bytes (encodeVals bytes)).map Char.ofNat) =
    Except.ok (bytes.map Char.ofNat)
  rw [b64Bytes_encodeVals bytes hb]

/-! ## Trim and split lemmas for the assembled token -/

theorem dropWhile_append_of (p : Char → Bool) :
    ∀ (l1 l2 : List Char), List.dropWhile p l1 ≠ [] →
      List.dropWhile p (l1 ++ l2) = List.dropWhile p l1 ++ l2
  | [], _, h => absurd rfl h
  | c :: l1, l2, h => by
    by_cases hp : p c = true
    · simp only [List.cons_append, List.dropWhile_cons, hp, if_true] at h ⊢
      exact dropWhile_append_of p l1 l2 h
    · simp [List.dropWhile_cons, hp]

theorem dropWhile_append_nil (p : Char → Bool) :
    ∀ (l1 l2 : List Char), List.dropWhile p l1 = [] →
      List.dropWhile p (l1 ++ l2) = List.dropWhile p l2
  | [], _, _ => rfl
  | c :: l1, l2, h => by
    simp only [List.cons_append, List.dropWhile_cons] at h ⊢
    by_cases hp : p c = true
    · simp only [hp, if_true] at h ⊢
      exact dropWhile_append_nil p l1 l2 h
    · simp [hp] at h

theorem mem_dropWhile (p : Char → Bool) :
    ∀ (l : List Char) (c : Char), c ∈ List.dropWhile p l → c ∈ l
  | [], _, h => h
  | d :: l, c, h => by
    by_cases hp : p d = true
    · simp only [List.dropWhile_cons, hp, if_true] at h
      exact List.mem_cons_of_mem d (mem_dropWhile p l c h)
    · simp only [List.dropWhile_cons, hp, if_false] at h
      exact h

theorem jsTrimList_concat (pre sig : List Char) (hne : pre ≠ [])
    (hws : ∀ c ∈ pre, jsWs c = false) :
    ∃ sig2, jsTrimList (pre ++ sig) = pre ++ sig2 ∧ ∀ c ∈ sig2, c ∈ sig := by
  obtain ⟨c0, pre1, rfl⟩ : ∃ c0 pre1, pre = c0 :: pre1 := by
    cases pre with
    | nil => exact absurd rfl hne
    | cons c0 pre1 => exact ⟨c0, pre1, rfl⟩
  have hfront : List.dropWhile jsWs ((c0 :: pre1) ++ sig) = (c0 :: pre1) ++ sig := by
    simp [List.dropWhile_cons, hws c0 (by simp)]
  rw [jsTrimList, hfront, List.reverse_append]
  by_cases hemp : List.dropWhile jsWs sig.reverse = []
  · rw [dropWhile_append_nil jsWs sig.reverse (c0 :: pre1).reverse hemp]
    have hpre : List.dropWhile jsWs (c0 :: pre1).reverse = (c0 :: pre1).reverse :=
      dropWhile_eq_self_of jsWs _ (fun c hc => hws c (by
        rw [← List.mem_reverse]
        exact hc))
    rw [hpre, List.reverse_reverse]
    exact ⟨[], by simp, fun c hc => absurd hc (by simp)⟩
  · rw [dropWhile_append_of jsWs sig.reverse (c0 :: pre1).reverse hemp,
      List.reverse_append, List.reverse_reverse]
    refine ⟨(List.dropWhile jsWs sig.reverse).reverse, rfl, fun c hc => ?_⟩
    rw [List.mem_reverse] at hc
    have := mem_dropWhile jsWs sig.reverse c hc
    rwa [List.mem_reverse] at this

theorem splitDot_no_dot : ∀ (l : List Char), (∀ c ∈ l, c ≠ Char.ofNat 46) → splitDot l = [l]
  | [], _ => rfl
  | c :: rest, h => by
    rw [splitDot, if_neg (h c (by simp)),
      splitDot_no_dot rest (fun c2 h2 => h c2 (by simp [h2]))]

theorem splitDot_append : ∀ (a b : List Char), (∀ c ∈ a, c ≠ Char.ofNat 46) →
    splitDot (a ++ Char.ofNat 46 :: b) = a :: splitDot b
  | [], b, _ => by
    rw [List.nil_append, splitDot, if_pos rfl]
  | c :: a, b, h => by
    rw [List.cons_append, splitDot, if_neg (h c (by simp)),
      splitDot_append a b (fun c2 h2 => h c2 (by simp [h2]))]

/-- C3 counterexample: the claim quantifies over every signature string,
but a signature containing a dot changes the segment count: encoding two
empty objects with the signature x.y yields a four-segment token, and
decoding fails instead of reproducing the header and payload. -/
theorem C3_counterexample :
    decodeJWT (encodeJWT (Json.obj []) (Json.obj []) ['x', Char.ofNat 46, 'y']) 0 = none := rfl

/-- C3 (amended): the round trip holds for every header and payload and
every dot-free signature: base64url-encoding the serialized header and
payload, joining the three segments with dots and decoding succeeds and
reproduces header and payload exactly — provided the serialized texts
stay below U+0100 (the decoder is byte-wise through atob and cannot
reassemble multi-byte UTF-8; the embedding encodes the serialized text
byte-wise, which requires this bound) and the payload is not the JSON
null (whose decode fails on property access). -/
theorem C3_roundtrip (h p : Json) (sig : List Char) (now : Int)
    (hdot : Char.ofNat 46 ∉ sig)
    (hbh : ∀ c ∈ jsonStringify h, c.toNat < 256)
    (hbp : ∀ c ∈ jsonStringify p, c.toNat < 256)
    (hnull : p ≠ Json.null) :
    ∃ d, decodeJWT (encodeJWT h p sig) now = some d ∧ d.header = h ∧ d.payload = p := by
  have hmapOf : ∀ (j : Json), (∀ c ∈ jsonStringify j, c.toNat < 256) →
      base64UrlDecode (b64UrlEncode ((jsonStringify j).map Char.toNat)) =
        .ok (jsonStringify j) := by
    intro j hbj
    rw [base64UrlDecode_encode _ (fun b hb => by
      obtain ⟨c, hc, rfl⟩ := List.mem_map.mp hb
      exact hbj c hc)]
    congr 1
    rw [List.map_map]
    calc List.map (Char.ofNat ∘ Char.toNat) (jsonStringify j)
        = List.map id (jsonStringify j) :=
          List.map_congr_left (fun c _ => Char.ofNat_toNat c)
      _ = jsonStringify j := List.map_id _
  have hseg : ∀ (j : Json), (∀ c2 ∈ jsonStringify j, c2.toNat < 256) →
      ∀ c ∈ b64UrlEncode ((jsonStringify j).map Char.toNat),
      c ≠ Char.ofNat 46 ∧ jsWs c = false := by
    intro j hbj c hc
    obtain ⟨v, hv, rfl⟩ := List.mem_map.mp hc
    have hv64 : v < 64 := encodeVals_lt _ (fun b hb => by
      obtain ⟨c2, hc2, rfl⟩ := List.mem_map.mp hb
      exact hbj c2 hc2) v hv
    exact ⟨b64Char_ne_dot v hv64, b64Char_not_jsWs v hv64⟩
  set encH := b64UrlEncode ((jsonStringify h).map Char.toNat) with hencH
  set encP := b64UrlEncode ((jsonStringify p).map Char.toNat) with hencP
  have htok : (encodeJWT h p sig).data =
      (encH ++ Char.ofNat 46 :: encP ++ [Char.ofNat 46]) ++ sig := by
    show encH ++ Char.ofNat 46 :: encP ++ Char.ofNat 46 :: sig = _
    simp
  have hpre_ne : (encH ++ Char.ofNat 46 :: encP ++ [Char.ofNat 46]) ≠ [] := by simp
  have hpre_ws : ∀ c ∈ encH ++ Char.ofNat 46 :: encP ++ [Char.ofNat 46],
      jsWs c = false := by
    intro c hc
    rcases List.mem_append.mp hc with hc | hc
    · rcases List.mem_append.mp hc with hc | hc
      · exact (hseg h hbh c hc).2
      · rcases List.mem_cons.mp hc with rfl | hc
        · decide
        · exact (hseg p hbp c hc).2
    · rcases List.mem_singleton.mp hc with rfl
      decide
  obtain ⟨sig2, htrim, hsub⟩ := jsTrimList_concat _ sig hpre_ne hpre_ws
  have hsig2 : ∀ c ∈ sig2, c ≠ Char.ofNat 46 := fun c hc hc46 => hdot (hc46 ▸ hsub c hc)
  have hsplit : splitDot (jsTrimList (encodeJWT h p sig).data) = [encH, encP, sig2] := by
    rw [htok, htrim]
    rw [show (encH ++ Char.ofNat 46 :: encP ++ [Char.ofNat 46]) ++ sig2 =
      encH ++ Char.ofNat 46 :: (encP ++ Char.ofNat 46 :: sig2) from by simp]
    rw [splitDot_append encH _ (fun c hc => (hseg h hbh c hc).1),
      splitDot_append encP (sig2) (fun c hc => (hseg p hbp c hc).1),
      splitDot_no_dot sig2 hsig2]
  exact ⟨_, decode_eq_some now hsplit (hmapOf h hbh) (jsonParse_ser h)
    (hmapOf p hbp) (jsonParse_ser p) hnull, rfl, rfl⟩

/-- C3 witness: a one-claim header and an empty payload object round-trip
through encoding and decoding with the signature s. -/
theorem C3_roundtrip_witness :
    ∃ d, decodeJWT (encodeJWT (Json.obj [("a", Json.str "b")]) (Json.obj []) ['s']) 0 =
        some d ∧
      d.header = Json.obj [("a", Json.str "b")] ∧ d.payload = Json.obj [] :=
  C3_roundtrip (Json.obj [("a", Json.str "b")]) (Json.obj []) ['s'] 0
    (by decide) (by decide) (by decide) (by intro hc; cases hc)

end JwtDecoder
